import Mathlib

/-!
# filter_go: the streaming split-and-match engine

A shallow embedding of `filter.go` (package `main`) together with the parts of
the Go standard library it drives (`bytes.Index`, `bytes.Contains`,
`strings.HasSuffix`, `bufio.ScanLines`, `bufio.Scanner`, `bufio.Writer`).

Conventions of the embedding:

* a Go `[]byte` is a `List Byte`; the buffer a split function receives is a
  slice of the scanner's allocated buffer and so is never `nil`, while the
  token it returns may be: a token is an `Option (List Byte)`, `none` being
  Go's `nil`, which `bufio.Scanner` reads as "no token", and `some []` the
  empty token;
* Go's `-1` result of `bytes.Index` is `none`;
* loops that Go runs unboundedly (`for scan.Scan()`) take a fuel argument, and
  the development proves that a fuel linear in the input length is enough;
* the outside world (how many bytes each `Read` delivers, whether the stream
  ends in `io.EOF` or in a read failure, whether `os.Create` succeeds) is an
  explicit argument.
-/

namespace FilterGo

/-- One byte of a Go `[]byte`. -/
abbrev Byte := UInt8

/-- The bytes of an ASCII string literal, used to write down test vectors. -/
def ascii (s : String) : List Byte := s.toList.map (fun c => UInt8.ofNat c.toNat)

/-! ## Package `bytes` and `strings` -/

/-- Go `bytes.Index(s, sep)`: the index of the first instance of `sep` in `s`,
`none` standing for Go's `-1`. -/
def bytes.Index : List Byte → List Byte → Option Nat
  | [], sep => if sep.isPrefixOf [] then some 0 else none
  | b :: bs, sep =>
    if sep.isPrefixOf (b :: bs) then some 0
    else (bytes.Index bs sep).map (· + 1)

/-- Go `bytes.Contains(b, subslice)`, which is `Index(b, subslice) != -1`. -/
def bytes.Contains (b subslice : List Byte) : Bool :=
  (bytes.Index b subslice).isSome

/-- Go `bytes.IndexByte(b, c)`. -/
def bytes.IndexByte : List Byte → Byte → Option Nat
  | [], _ => none
  | b :: bs, c => if b = c then some 0 else (bytes.IndexByte bs c).map (· + 1)

/-- Go `strings.HasSuffix(s, suffix)`. -/
def strings.HasSuffix (s suffix : String) : Bool :=
  suffix.toList.isSuffixOf s.toList

/-! ## Split functions -/

/-- The errors a `bufio.Scanner` can hold. `EOF` is `io.EOF`; `readFailure`
stands for any other error returned by the underlying reader. -/
inductive Error where
  | EOF
  | readFailure
  | ErrTooLong
  | ErrAdvanceTooFar
deriving DecidableEq

/-- The three results `(advance int, token []byte, err error)` of a
`bufio.SplitFunc`. -/
structure SplitResult where
  advance : Nat
  token : Option (List Byte)
  err : Option Error
deriving DecidableEq

/-- Go `bufio.SplitFunc`. -/
abbrev SplitFunc := List Byte → Bool → SplitResult

/-- The function `splitAt` of `filter.go`: the delimiter-mode split function. -/
def splitAt (substring : List Byte) : SplitFunc := fun data atEOF =>
  -- Return nothing if at end of file and no data passed
  if atEOF && data.length == 0 then
    ⟨0, none, none⟩
  else
    match bytes.Index data substring with
    | some i => ⟨i + substring.length, some (data.take i), none⟩
    | none =>
      -- If we're at EOF, we have a final, non-terminated line. Return it.
      if atEOF then ⟨data.length, some data, none⟩
      -- Request more data.
      else ⟨0, none, none⟩

/-- Go `bufio.dropCR`: drops a terminal carriage return from the data. -/
def bufio.dropCR (data : List Byte) : List Byte :=
  if data.length > 0 && data.getLast? == some 13 then data.take (data.length - 1)
  else data

/-- Go `bufio.ScanLines`: the line-mode split function. -/
def bufio.ScanLines : SplitFunc := fun data atEOF =>
  if atEOF && data.length == 0 then
    ⟨0, none, none⟩
  else
    match bytes.IndexByte data 10 with
    | some i => ⟨i + 1, some (bufio.dropCR (data.take i)), none⟩
    | none =>
      if atEOF then ⟨data.length, some (bufio.dropCR data), none⟩
      else ⟨0, none, none⟩

/-! ## `bufio.Scanner` -/

/-- The `*bufio.Reader` handed to `process`, as seen by the scanner: the bytes
still unread, how many bytes each successive successful `Read` delivers at
most (entry `k` stands for `k + 1` bytes; once the list is exhausted a `Read`
delivers all it has room for), and whether the stream ends in a read failure
rather than in `io.EOF`. A successful `Read` into a non-empty slice delivers
at least one byte. -/
structure Reader where
  rest : List Byte
  sizes : List Nat
  fails : Bool
deriving DecidableEq

/-- One call `r.Read(p)` with `len(p) = room`: the bytes delivered, the error
returned and the reader afterwards. -/
def Reader.Read (r : Reader) (room : Nat) : List Byte × Option Error × Reader :=
  if r.rest.length = 0 then
    ([], some (if r.fails then Error.readFailure else Error.EOF), r)
  else
    match r.sizes with
    | [] => (r.rest.take room, none, { r with rest := r.rest.drop room })
    | k :: ks =>
      (r.rest.take (min (k + 1) room), none,
        { r with rest := r.rest.drop (min (k + 1) room), sizes := ks })

/-- The state of a Go `bufio.Scanner`. The buffer `s.buf` is represented by its
length `cap`, the index `start` and the window `pending = s.buf[s.start:s.end]`
(so `s.end = start + pending.length`). -/
structure Scanner where
  r : Reader
  maxTokenSize : Nat
  cap : Nat
  start : Nat
  pending : List Byte
  err : Option Error
  empties : Nat
deriving DecidableEq

/-- Go `bufio.NewScanner(r)` followed by `scan.Buffer(buf, max)` with
`len(buf) = cap(buf) = bufLen`. -/
def bufio.NewScanner (r : Reader) (bufLen max : Nat) : Scanner :=
  { r := r, maxTokenSize := max, cap := bufLen, start := 0, pending := [],
    err := none, empties := 0 }

/-- Go `(*Scanner).setErr`: records the first non-EOF error encountered. -/
def Scanner.setErr (s : Scanner) (e : Error) : Scanner :=
  if s.err = none ∨ s.err = some Error.EOF then { s with err := some e } else s

/-- Go `(*Scanner).Err`: the first non-EOF error. -/
def Scanner.Err (s : Scanner) : Option Error :=
  if s.err = some Error.EOF then none else s.err

/-- Go `bufio.maxConsecutiveEmptyReads`. -/
def bufio.maxConsecutiveEmptyReads : Nat := 100

/-- Go `bufio.startBufSize`. -/
def bufio.startBufSize : Nat := 4096

/-- What one pass through the `for` loop of `(*Scanner).Scan` does. -/
inductive Step where
  /-- The call of `Scan` returns `true` with `s.token = tok`. -/
  | token (tok : List Byte) (s : Scanner)
  /-- the loop goes round again. -/
  | more (s : Scanner)
  /-- The call of `Scan` returns `false`. -/
  | stop (s : Scanner)
  /-- The call of `Scan` panics: "bufio.Scan: too many empty tokens without progressing". -/
  | panic (s : Scanner)
deriving DecidableEq

/-- In `(*Scanner).Scan`: "First, shift data to beginning of buffer if there's
lots of empty space or space is needed." -/
def Scanner.shift (s : Scanner) : Scanner :=
  if s.start > 0 ∧ (s.start + s.pending.length = s.cap ∨ s.start > s.cap / 2) then
    { s with start := 0 }
  else s

/-- In `(*Scanner).Scan`: the buffer is full and may still grow, so a buffer of
twice the length, at most `maxTokenSize`, replaces it. -/
def Scanner.grow (s : Scanner) : Scanner :=
  let newSize := if s.cap * 2 = 0 then bufio.startBufSize else s.cap * 2
  { s with cap := min newSize s.maxTokenSize, start := 0 }

/-- In `(*Scanner).Scan`: "Finally we can read some input", one
`s.r.Read(s.buf[s.end:len(s.buf)])`. -/
def Scanner.read (s : Scanner) : Scanner :=
  let rd := s.r.Read (s.cap - (s.start + s.pending.length))
  let s1 : Scanner := { s with r := rd.2.2, pending := s.pending ++ rd.1 }
  match rd.2.1 with
  | some e => s1.setErr e
  | none => { s1 with empties := 0 }

/-- Second half of the loop body of `(*Scanner).Scan`: no token could be cut
from what is held, so stop at EOF / error, or else make room and read. -/
def Scanner.fill (s : Scanner) : Step :=
  -- If we've already hit EOF or an I/O error, we are done.
  if s.err ≠ none then
    Step.stop { s with start := 0, pending := [] }
  else
    let s1 := s.shift
    -- Is the buffer full? If so, resize.
    if s1.start + s1.pending.length = s1.cap then
      if s1.cap ≥ s1.maxTokenSize then
        Step.stop (s1.setErr Error.ErrTooLong)
      else
        Step.more s1.grow.read
    else
      Step.more s1.read

/-- One pass through the `for` loop of `(*Scanner).Scan`. -/
def Scanner.step (split : SplitFunc) (s : Scanner) : Step :=
  -- See if we can get a token with what we already have.
  if s.pending.length > 0 ∨ s.err ≠ none then
    let res := split s.pending (s.err ≠ none)
    match res.err with
    | some e => Step.stop (s.setErr e)
    | none =>
      -- s.advance(advance)
      if res.advance > s.pending.length then
        Step.stop (s.setErr Error.ErrAdvanceTooFar)
      else
        let s1 : Scanner :=
          { s with start := s.start + res.advance, pending := s.pending.drop res.advance }
        match res.token with
        | some tok =>
          if s.err = none ∨ res.advance > 0 then
            Step.token tok { s1 with empties := 0 }
          else if s.empties + 1 > bufio.maxConsecutiveEmptyReads then
            -- Returning tokens not advancing input at EOF.
            Step.panic { s1 with empties := s.empties + 1 }
          else
            Step.token tok { s1 with empties := s.empties + 1 }
        | none => s1.fill
  else
    s.fill

/-- How a run of the scanning loop ended. -/
inductive Ending where
  /-- The call of `Scan` returned `false`. -/
  | finished
  /-- The call of `Scan` panicked. -/
  | panicked
  /-- the fuel ran out before `Scan` returned `false`. -/
  | outOfFuel
deriving DecidableEq

/-- The loop `for scan.Scan() { ... scan.Bytes() ... }`: every token handed to
the loop body, in order, how the loop ended and the scanner at that point.
Calling `Scan` again after it returned `true` re-enters the same `for` loop,
so successive calls are a single iteration of `Scanner.step`. -/
def Scanner.run (split : SplitFunc) : Nat → Scanner → List (List Byte) × Ending × Scanner
  | 0, s => ([], Ending.outOfFuel, s)
  | fuel + 1, s =>
    match s.step split with
    | Step.token tok s1 =>
      let rest := Scanner.run split fuel s1
      (tok :: rest.1, rest.2)
    | Step.more s1 => Scanner.run split fuel s1
    | Step.stop s1 => ([], Ending.finished, s1)
    | Step.panic s1 => ([], Ending.panicked, s1)

/-! ## `os.File` and `bufio.Writer` -/

/-- The output `*os.File` as far as writing goes: the bytes on disk and how
many more bytes the file accepts before a write fails (`none`: no limit). -/
structure File where
  bytes : List Byte
  room : Option Nat
deriving DecidableEq

/-- Go `(*os.File).Write(p)`: the file afterwards, the number of bytes written
and whether an error is returned (a short write always comes with one). -/
def File.Write (f : File) (p : List Byte) : File × Nat × Bool :=
  match f.room with
  | none => ({ f with bytes := f.bytes ++ p }, p.length, false)
  | some n =>
    if p.length ≤ n then
      ({ bytes := f.bytes ++ p, room := some (n - p.length) }, p.length, false)
    else
      ({ bytes := f.bytes ++ p.take n, room := some 0 }, n, true)

/-- Go `bufio.defaultBufSize`, the buffer size `bufio.NewWriter` uses. -/
def bufio.defaultBufSize : Nat := 4096

/-- The state of a Go `bufio.Writer`: the underlying file `wr`, the buffered
bytes `buf = b.buf[0:b.n]`, the buffer length `size = len(b.buf)` and whether
the sticky error `b.err` is set. -/
structure Writer where
  wr : File
  buf : List Byte
  size : Nat
  err : Bool
deriving DecidableEq

/-- Go `bufio.NewWriter(w)`. -/
def bufio.NewWriter (w : File) : Writer :=
  { wr := w, buf := [], size := bufio.defaultBufSize, err := false }

/-- Go `(*Writer).Available`: how many bytes are unused in the buffer. -/
def Writer.Available (b : Writer) : Nat := b.size - b.buf.length

/-- Go `(*Writer).Flush`: writes any buffered data to the underlying file. -/
def Writer.Flush (b : Writer) : Writer :=
  if b.err then b
  else if b.buf.length = 0 then b
  else
    let res := b.wr.Write b.buf
    if res.2.2 then { b with wr := res.1, buf := b.buf.drop res.2.1, err := true }
    else { b with wr := res.1, buf := [] }

/-- Go `(*Writer).Write(p)`, with its loop
`for len(p) > b.Available() && b.err == nil` unrolled (it runs at most twice:
a pass that fills and flushes a non-empty buffer leaves the buffer empty, and
a pass on an empty buffer writes all of `p` straight to the file). Returns the
writer afterwards and whether an error is returned. Nothing here flushes a
buffer that `p` still fits into. -/
def Writer.Write (b : Writer) (p : List Byte) : Writer × Bool :=
  if b.err then (b, true)
  else if p.length ≤ b.Available then ({ b with buf := b.buf ++ p }, false)
  else if b.buf.length = 0 then
    -- Large write, empty buffer. Write directly from p to avoid copy.
    let res := b.wr.Write p
    ({ b with wr := res.1, err := res.2.2 }, res.2.2)
  else
    let b1 := Writer.Flush { b with buf := b.buf ++ p.take b.Available }
    let p1 := p.drop b.Available
    if b1.err then (b1, true)
    else if p1.length ≤ b1.Available then ({ b1 with buf := b1.buf ++ p1 }, false)
    else
      let res := b1.wr.Write p1
      ({ b1 with wr := res.1, err := res.2.2 }, res.2.2)

/-! ## Package `cli`: the run parameters -/

/-- A compiled `*regexp.Regexp`, as far as `filter.go` uses it: its method
`Match(b []byte) bool`. -/
structure Regexp where
  Match : List Byte → Bool

/-- The fields of `cli.Params` that `filter.go` reads. `BufferSize` is read by
`process` but is not declared in `cli/cliParams.go`. -/
structure Params where
  SearchStrings : List (List Byte)
  RegexpStrings : List Regexp
  Force : Bool
  Line : Bool
  Inverse : Bool
  X : Bool
  Mask : String
  InputDir : String
  OutputDir : String
  Delimiter : List Byte
  BufferSize : Nat

/-! ## `filter.go` -/

/-- A line handed to the logger by the functions modelled here. -/
inductive LogLine where
  /-- Line "can't open output file %v due to error %v". -/
  | cantOpenOutput (name : String)
  /-- Line "can't write file %v due to %v". -/
  | cantWrite (name : String)
  /-- Line "can't read file %v due to %v". -/
  | cantRead (name : String) (e : Error)
  /-- Line "can't close file %v due to %v", through `log.Fatalf`. -/
  | cantClose (name : String)
  /-- Line "WARN: directory %v already exist, but -f option is missed". -/
  | warnExists (path : String)
  /-- Line "can't clear directory %v due to %v", through `log.Fatalf`. -/
  | cantClear (path : String)
  /-- Line "directory %v already exist", through `log.Fatalf`. -/
  | alreadyExists (path : String)
  /-- the error of `os.MkdirAll`, through `log.Fatal`. -/
  | cantMkdir (path : String)
  /-- Line "zip file: %v". -/
  | zipFile (name : String)
  /-- Line "log file: %v". -/
  | logFile (name : String)
deriving DecidableEq

/-- The output side of `process`: the `bufio.Writer` and what was logged. -/
structure Out where
  w : Writer
  log : List LogLine
deriving DecidableEq

/-- The function `writeChunk` of `filter.go`. -/
def writeChunk (out : Out) (data : List Byte) (name : String) : Out :=
  let res := out.w.Write data
  if res.2 then { w := res.1, log := out.log ++ [LogLine.cantWrite name] }
  else { w := res.1, log := out.log }

/-- The function `getSplitFunc` of `filter.go`. -/
def getSplitFunc (params : Params) : SplitFunc :=
  if params.Line then bufio.ScanLines
  else splitAt params.Delimiter

/-- The body of the loop `for scan.Scan()` in `process`, for one token: the
loop over `params.SearchStrings` followed by the loop over
`params.RegexpStrings`. -/
def processToken (params : Params) (name : String) (out : Out) (token : List Byte) : Out :=
  let out1 := params.SearchStrings.foldl (fun o search =>
    if bytes.Contains token search == !params.Inverse then
      writeChunk (writeChunk o params.Delimiter name) token name
    else o) out
  params.RegexpStrings.foldl (fun o search =>
    if search.Match token == !params.Inverse then
      writeChunk (writeChunk o params.Delimiter name) token name
    else o) out1

/-- What `process` meets outside: whether `os.Create` and `outFile.Close`
succeed, and how many bytes the output file accepts (`none`: no limit). -/
structure Env where
  createOk : Bool
  closeOk : Bool
  room : Option Nat
deriving DecidableEq

/-- What one call of `process` leaves behind. -/
structure Result where
  /-- whether `os.Create` was called and made the output file. -/
  created : Bool
  /-- the bytes in the output file once `process` has returned. -/
  file : List Byte
  /-- the bytes still held in the `bufio.Writer` when `process` returned. -/
  buffered : List Byte
  /-- the tokens `scan.Scan()` handed to the loop body, in order. -/
  tokens : List (List Byte)
  /-- the input reader once `process` has returned. -/
  reader : Reader
  /-- the lines logged, in order. -/
  log : List LogLine
  /-- whether `log.Fatalf` ended the program. -/
  fatal : Bool
  /-- how the scanning loop ended. -/
  ending : Ending
deriving DecidableEq

/-- The function `process` of `filter.go`. The loop body only writes to
`outWriter`, which the scanner never reads, so the tokens are first collected
by `Scanner.run` and the loop bodies then run over them in order. The deferred
`outFile.Close()` runs last; nothing in `process` calls `outWriter.Flush()`. -/
def process (fuel : Nat) (env : Env) (input : Reader) (params : Params) (name : String) :
    Result :=
  if params.X then
    { created := false, file := [], buffered := [], tokens := [], reader := input,
      log := [], fatal := false, ending := Ending.finished }
  else
    -- open out file
    if !env.createOk then
      { created := false, file := [], buffered := [], tokens := [], reader := input,
        log := [LogLine.cantOpenOutput name], fatal := false, ending := Ending.finished }
    else
      let outWriter := bufio.NewWriter { bytes := [], room := env.room }
      -- prepare scanner
      let scan := bufio.NewScanner input params.BufferSize params.BufferSize
      -- process file
      let ran := scan.run (getSplitFunc params) fuel
      let out := ran.1.foldl (processToken params name) { w := outWriter, log := [] }
      -- process read errors
      let log1 := match ran.2.2.Err with
        | some e => out.log ++ [LogLine.cantRead name e]
        | none => out.log
      { created := true, file := out.w.wr.bytes, buffered := out.w.buf, tokens := ran.1,
        reader := ran.2.2.r,
        log := if env.closeOk then log1 else log1 ++ [LogLine.cantClose name],
        fatal := !env.closeOk, ending := ran.2.1 }

/-- Go `filepath.Join` with `/` as separator: empty elements are ignored and
the rest joined. The final `Clean` of the result is not modelled; paths are
only carried along here, never inspected. -/
def filepath.Join (elem : List String) : String :=
  "/".intercalate (elem.filter (fun e => e ≠ ""))

/-- A file-system call that changes the directory tree. -/
inductive FsOp where
  | RemoveAll (path : String)
  | MkdirAll (path : String)
deriving DecidableEq

/-- What `prepareDst` meets outside: whether the output directory is there
already (`os.Stat` does not answer "not exist"), and whether `os.RemoveAll`
and `os.MkdirAll` succeed. -/
structure DstEnv where
  present : Bool
  removeOk : Bool
  mkdirOk : Bool
deriving DecidableEq

/-- What `prepareDst` does: its file-system calls, its log lines and whether
`log.Fatal` ended the program. -/
structure DstResult where
  ops : List FsOp
  log : List LogLine
  fatal : Bool
deriving DecidableEq

/-- The function `prepareDst` of `filter.go`. -/
def prepareDst (env : DstEnv) (params : Params) : DstResult :=
  let path := filepath.Join [params.InputDir, params.OutputDir]
  let r1 : DstResult :=
    if env.present then
      if params.Force then
        if !env.removeOk then
          { ops := [FsOp.RemoveAll path], log := [LogLine.cantClear path], fatal := true }
        else { ops := [FsOp.RemoveAll path], log := [], fatal := false }
      else
        if params.X then { ops := [], log := [LogLine.warnExists path], fatal := false }
        else { ops := [], log := [LogLine.alreadyExists path], fatal := true }
    else { ops := [], log := [], fatal := false }
  if r1.fatal then r1
  else if params.X then r1
  else if !env.mkdirOk then
    { ops := r1.ops ++ [FsOp.MkdirAll path], log := r1.log ++ [LogLine.cantMkdir path],
      fatal := true }
  else { r1 with ops := r1.ops ++ [FsOp.MkdirAll path] }

/-- The `os.FileInfo` of a candidate, as far as `Run` reads it. -/
structure FileInfo where
  Name : String
  IsDir : Bool
deriving DecidableEq

/-- The goroutine `Run` starts for a candidate. -/
inductive Task where
  | introspectZip (name : String)
  | processLog (name : String)
deriving DecidableEq

/-- The body of the loop over `files` in `Run`, after `os.Stat`: the line
logged and the goroutine started for one candidate, if any. -/
def Run.launch (file : FileInfo) : Option (LogLine × Task) :=
  if !file.IsDir then
    if strings.HasSuffix file.Name "zip" then
      some (LogLine.zipFile file.Name, Task.introspectZip file.Name)
    else
      some (LogLine.logFile file.Name, Task.processLog file.Name)
  else none

/-! ## Reference tokenisation

The scanner of `process` sees the stream in pieces. `splitAll` is the same
split function driven over the whole remaining stream at once, every call made
with `atEOF = true`; `Scanner.run` is proved to produce exactly these tokens
whatever the pieces are. -/

/-- Drives a split function over `data` held whole, at most `fuel` tokens. -/
def splitAll.go (split : SplitFunc) : Nat → List Byte → List (List Byte)
  | 0, _ => []
  | fuel + 1, data =>
    match (split data true).token with
    | some tok => tok :: splitAll.go split fuel (data.drop (split data true).advance)
    | none => []

/-- The tokens of `data` under `split`, all of `data` being available. -/
def splitAll (split : SplitFunc) (data : List Byte) : List (List Byte) :=
  splitAll.go split (data.length + 1) data

/-- The part of the stream a scanner has not cut into tokens yet: what it
holds followed by what the reader has still to deliver. -/
def Scanner.remaining (s : Scanner) : List Byte := s.pending ++ s.r.rest

/-- The error with which the reader of `s` ends the stream. -/
def Scanner.endErr (s : Scanner) : Error :=
  if s.r.fails then Error.readFailure else Error.EOF

/-- The states a scanner goes through while it reads: the window lies inside
the buffer, and an error is held only once the reader is exhausted. -/
def Scanner.Valid (s : Scanner) : Prop :=
  s.start + s.pending.length ≤ s.cap ∧
    (s.err = none ∨ (s.r.rest = [] ∧ s.err = some s.endErr))

/-- A bound on the number of passes through the loop of `Scan` still to come. -/
def Scanner.measure (s : Scanner) : Nat :=
  2 * s.r.rest.length + s.pending.length + (if s.err = none then 1 else 0)

/-- The `records` joined with `delimiter` between consecutive records. -/
def rejoin (delimiter : List Byte) (records : List (List Byte)) : List Byte :=
  (records.intersperse delimiter).flatten

/-! ## Notions used to state the properties -/

/-- One emission of a record: the two `writeChunk` calls made in a loop body
of `process` when a criterion selects the token. -/
def emit (params : Params) (name : String) (token : List Byte) (out : Out) : Out :=
  writeChunk (writeChunk out params.Delimiter name) token name

/-- All the bytes a writer has accepted: those passed on to the file followed
by those it still holds. -/
def Writer.accepted (b : Writer) : List Byte := b.wr.bytes ++ b.buf

/-- A writer that has met no error, on a file without write limit. -/
def Writer.Sound (b : Writer) : Prop := b.err = false ∧ b.wr.room = none

/-- The number of criteria of `params` that select `token`: the literal
patterns, then the regular expressions, each list entry counted. -/
def selecting (params : Params) (token : List Byte) : Nat :=
  params.SearchStrings.countP (fun search => decide (search <:+: token) == !params.Inverse) +
    params.RegexpStrings.countP (fun search => search.Match token == !params.Inverse)

/-- The bytes `process` is to put out for a sequence of tokens: for each token
in order, one chunk `delimiter ++ token` per selecting criterion. -/
def expected (params : Params) (tokens : List (List Byte)) : List Byte :=
  (tokens.map (fun token =>
    (List.replicate (selecting params token) (params.Delimiter ++ token)).flatten)).flatten

/-- Scenario A of the specification: delimiter `####`, one literal criterion
`B`, inverse off, dry-run off, delimiter mode, with buffer size `n`. -/
def scenarioA (n : Nat) : Params :=
  { SearchStrings := [ascii "B"], RegexpStrings := [], Force := false, Line := false,
    Inverse := false, X := false, Mask := "*", InputDir := "in", OutputDir := "out",
    Delimiter := ascii "####", BufferSize := n }

/-! ## `bytes.Index` finds the first occurrence -/

theorem Index_eq_some_iff (data sep : List Byte) (i : Nat) :
    bytes.Index data sep = some i ↔
      sep <+: data.drop i ∧ ∀ j, j < i → ¬ sep <+: data.drop j := by
  induction data generalizing i with
  | nil =>
    by_cases h : sep = []
    · subst h
      simp only [bytes.Index, List.isPrefixOf, if_true, List.drop_nil, List.nil_prefix, true_and,
        not_true_eq_false, imp_false, not_lt, Option.some.injEq]
      constructor
      · intro h j; omega
      · intro h; have := h 0; omega
    · have hp : sep.isPrefixOf [] = false := by
        cases sep with
        | nil => exact absurd rfl h
        | cons a t => rfl
      simp [bytes.Index, hp, List.prefix_nil, h]
  | cons b bs ih =>
    by_cases hp : sep.isPrefixOf (b :: bs) = true
    · have hp2 : sep <+: b :: bs := List.isPrefixOf_iff_prefix.mp hp
      simp only [bytes.Index, hp, if_true, Option.some.injEq]
      constructor
      · intro h; subst h; exact ⟨by simpa using hp2, fun j hj => absurd hj (Nat.not_lt_zero j)⟩
      · rintro ⟨_, h2⟩
        by_contra hne
        exact h2 0 (by omega) (by simpa using hp2)
    · have hp2 : ¬ sep <+: b :: bs := fun h => hp (List.isPrefixOf_iff_prefix.mpr h)
      simp only [bytes.Index, hp, Bool.false_eq_true, if_false, Option.map_eq_some']
      constructor
      · rintro ⟨k, hk, rfl⟩
        obtain ⟨h1, h2⟩ := (ih k).mp hk
        refine ⟨by simpa using h1, fun j hj => ?_⟩
        cases j with
        | zero => simpa using hp2
        | succ j => simpa using h2 j (by omega)
      · rintro ⟨h1, h2⟩
        cases i with
        | zero => exact absurd (by simpa using h1) hp2
        | succ k =>
          refine ⟨k, (ih k).mpr ⟨by simpa using h1, fun j hj => ?_⟩, rfl⟩
          simpa using h2 (j + 1) (by omega)

theorem Index_eq_none_iff (data sep : List Byte) :
    bytes.Index data sep = none ↔ ∀ j, ¬ sep <+: data.drop j := by
  constructor
  · intro h j hj
    -- take the least occurrence
    have hex : ∃ k, sep <+: data.drop k := ⟨j, hj⟩
    classical
    have hk := Nat.find_spec hex
    have hmin : ∀ m, m < Nat.find hex → ¬ sep <+: data.drop m :=
      fun m hm => Nat.find_min hex hm
    have := (Index_eq_some_iff data sep (Nat.find hex)).mpr ⟨hk, hmin⟩
    rw [h] at this
    exact Option.noConfusion this
  · intro h
    cases hI : bytes.Index data sep with
    | none => rfl
    | some i => exact absurd ((Index_eq_some_iff data sep i).mp hI).1 (h i)

theorem Index_bound {data sep : List Byte} {i : Nat} (h : bytes.Index data sep = some i) :
    i + sep.length ≤ data.length := by
  have h1 := ((Index_eq_some_iff data sep i).mp h).1
  have h2 := h1.length_le
  simp only [List.length_drop] at h2
  by_cases hs : sep = []
  · subst hs
    have h0 : bytes.Index data [] = some 0 := by
      cases data <;> simp [bytes.Index, List.isPrefixOf]
    rw [h0] at h
    cases h
    simp
  · have : 0 < sep.length := List.length_pos.mpr hs
    omega

theorem occurs_iff_isInfix (data sep : List Byte) :
    (∃ j, sep <+: data.drop j) ↔ sep <:+: data := by
  constructor
  · rintro ⟨j, hj⟩
    exact hj.isInfix.trans (List.drop_suffix j data).isInfix
  · rintro ⟨s, t, rfl⟩
    refine ⟨s.length, ?_⟩
    simp [List.append_assoc]

theorem Contains_iff_isInfix (b subslice : List Byte) :
    bytes.Contains b subslice = true ↔ subslice <:+: b := by
  rw [← occurs_iff_isInfix]
  unfold bytes.Contains
  cases h : bytes.Index b subslice with
  | none =>
    simp only [Option.isSome_none, Bool.false_eq_true, false_iff, not_exists]
    exact (Index_eq_none_iff b subslice).mp h
  | some i =>
    simp only [Option.isSome_some, true_iff]
    exact ⟨i, ((Index_eq_some_iff b subslice i).mp h).1⟩

/-! ## `splitAt`, case by case -/

theorem splitAt_nil_eof (d : List Byte) : splitAt d [] true = ⟨0, none, none⟩ := by
  simp [splitAt]

theorem splitAt_found {d data : List Byte} {i : Nat} (atEOF : Bool)
    (h : bytes.Index data d = some i) (hne : ¬ (atEOF = true ∧ data = [])) :
    splitAt d data atEOF = ⟨i + d.length, some (data.take i), none⟩ := by
  have hc : (atEOF && data.length == 0) = false := by
    cases atEOF with
    | false => rfl
    | true =>
      cases data with
      | nil => exact absurd ⟨rfl, rfl⟩ hne
      | cons a t => rfl
  simp [splitAt, hc, h]

theorem splitAt_last {d data : List Byte}
    (h : bytes.Index data d = none) (hne : data ≠ []) :
    splitAt d data true = ⟨data.length, some data, none⟩ := by
  have hc : (true && data.length == 0) = false := by
    cases data with
    | nil => exact absurd rfl hne
    | cons a t => rfl
  simp [splitAt, hc, h]

theorem splitAt_more {d data : List Byte} (h : bytes.Index data d = none) :
    splitAt d data false = ⟨0, none, none⟩ := by
  simp [splitAt, h]

/-! ## `bytes.Index` on a buffer that is later extended -/

theorem Index_append {p d : List Byte} {i : Nat} (q : List Byte)
    (h : bytes.Index p d = some i) : bytes.Index (p ++ q) d = some i := by
  have hb := Index_bound h
  obtain ⟨h1, h2⟩ := (Index_eq_some_iff p d i).mp h
  refine (Index_eq_some_iff (p ++ q) d i).mpr ⟨?_, fun j hj hpre => ?_⟩
  · rw [List.drop_append_of_le_length (by omega)]
    exact h1.trans (List.prefix_append _ _)
  · rw [List.drop_append_of_le_length (by omega)] at hpre
    refine h2 j hj (List.prefix_of_prefix_length_le hpre (List.prefix_append _ _) ?_)
    simp only [List.length_drop]
    omega

/-! ## Unfolding `splitAll` for `splitAt` -/

theorem splitAll_go_nil (d : List Byte) (fuel : Nat) :
    splitAll.go (splitAt d) fuel [] = [] := by
  cases fuel with
  | zero => rfl
  | succ n => simp [splitAll.go, splitAt_nil_eof]

theorem nonempty_of_Index {d data : List Byte} {i : Nat} (hd : d ≠ [])
    (h : bytes.Index data d = some i) : data ≠ [] := by
  have hb := Index_bound h
  have : 0 < d.length := List.length_pos.mpr hd
  intro hnil
  rw [hnil, List.length_nil] at hb
  omega

theorem splitAll_go_fuel {d : List Byte} (hd : d ≠ []) :
    ∀ (fuel1 fuel2 : Nat) (data : List Byte), data.length < fuel1 → data.length < fuel2 →
      splitAll.go (splitAt d) fuel1 data = splitAll.go (splitAt d) fuel2 data := by
  intro fuel1
  induction fuel1 with
  | zero => intro fuel2 data h1; omega
  | succ n ih =>
    intro fuel2 data h1 h2
    cases fuel2 with
    | zero => omega
    | succ m =>
      by_cases hnil : data = []
      · subst hnil
        rw [splitAll_go_nil, splitAll_go_nil]
      · have hpos : 0 < d.length := List.length_pos.mpr hd
        have hlen : 0 < data.length := List.length_pos.mpr hnil
        cases hI : bytes.Index data d with
        | some i =>
          have hs := splitAt_found true hI (fun hh => hnil hh.2)
          simp only [splitAll.go, hs]
          congr 1
          apply ih
          · simp only [List.length_drop]; omega
          · simp only [List.length_drop]; omega
        | none =>
          have hs := splitAt_last hI hnil
          simp only [splitAll.go, hs, List.drop_length, splitAll_go_nil]

theorem splitAll_go_found {d data : List Byte} {i : Nat} (fuel : Nat) (hd : d ≠ [])
    (h : bytes.Index data d = some i) :
    splitAll.go (splitAt d) (fuel + 1) data
      = data.take i :: splitAll.go (splitAt d) fuel (data.drop (i + d.length)) := by
  have hnil := nonempty_of_Index hd h
  have hs := splitAt_found true h (fun hh => hnil hh.2)
  simp only [splitAll.go, hs]

theorem splitAll_nil (d : List Byte) : splitAll (splitAt d) [] = [] :=
  splitAll_go_nil d _

theorem splitAll_found {d data : List Byte} {i : Nat} (hd : d ≠ [])
    (h : bytes.Index data d = some i) :
    splitAll (splitAt d) data
      = data.take i :: splitAll (splitAt d) (data.drop (i + d.length)) := by
  have hnil := nonempty_of_Index hd h
  have hpos : 0 < d.length := List.length_pos.mpr hd
  have hlen : 0 < data.length := List.length_pos.mpr hnil
  unfold splitAll
  rw [splitAll_go_found _ hd h]
  congr 1
  apply splitAll_go_fuel hd
  · simp only [List.length_drop]; omega
  · simp only [List.length_drop]; omega

theorem splitAll_last {d data : List Byte}
    (h : bytes.Index data d = none) (hne : data ≠ []) :
    splitAll (splitAt d) data = [data] := by
  have hs := splitAt_last h hne
  unfold splitAll
  simp only [splitAll.go, hs, List.drop_length, splitAll_go_nil]

/-! ## One pass of the scanner loop -/

theorem Read_cases (r : Reader) (room : Nat) (hroom : 0 < room) :
    (r.rest = [] ∧ r.Read room
        = ([], some (if r.fails then Error.readFailure else Error.EOF), r)) ∨
    (∃ bs r', r.Read room = (bs, none, r') ∧ bs ++ r'.rest = r.rest ∧ 0 < bs.length ∧
        bs.length ≤ room ∧ r'.fails = r.fails) := by
  by_cases h : r.rest = []
  · left
    refine ⟨h, ?_⟩
    simp [Reader.Read, h]
  · right
    have hl : 0 < r.rest.length := List.length_pos.mpr h
    have hl2 : r.rest.length ≠ 0 := by omega
    cases hs : r.sizes with
    | nil =>
      refine ⟨r.rest.take room, { r with rest := r.rest.drop room }, ?_, ?_, ?_, ?_, rfl⟩
      · simp [Reader.Read, hl2, hs]
      · simp
      · simp only [List.length_take]; omega
      · simp only [List.length_take]; omega
    | cons k ks =>
      refine ⟨r.rest.take (min (k + 1) room),
        { r with rest := r.rest.drop (min (k + 1) room), sizes := ks }, ?_, ?_, ?_, ?_, rfl⟩
      · simp [Reader.Read, hl2, hs]
      · simp
      · simp only [List.length_take]; omega
      · simp only [List.length_take]; omega

theorem shift_spec (s : Scanner) :
    s.shift.pending = s.pending ∧ s.shift.r = s.r ∧ s.shift.err = s.err ∧
    s.shift.cap = s.cap ∧ s.shift.maxTokenSize = s.maxTokenSize ∧ s.shift.start ≤ s.start ∧
    (s.shift.start + s.pending.length = s.cap → s.shift.start = 0) := by
  unfold Scanner.shift
  split_ifs with h
  · simp
  · refine ⟨rfl, rfl, rfl, rfl, rfl, le_refl _, fun hfull => ?_⟩
    by_contra h0
    exact h ⟨by omega, Or.inl hfull⟩

theorem read_spec (s : Scanner) (hv : s.Valid) (he : s.err = none)
    (hroom : s.start + s.pending.length < s.cap) :
    s.read.Valid ∧ s.read.measure < s.measure ∧ s.read.remaining = s.remaining ∧
      s.read.r.fails = s.r.fails ∧ s.read.cap = s.cap := by
  rcases Read_cases s.r (s.cap - (s.start + s.pending.length)) (by omega) with
    ⟨hnil, hrd⟩ | ⟨bs, r', hrd, hcat, hpos, hle, hf⟩
  · have hread : s.read = { s with err := some s.endErr } := by
      simp [Scanner.read, hrd, Scanner.setErr, he, Scanner.endErr]
    rw [hread]
    refine ⟨⟨hv.1, Or.inr ⟨hnil, rfl⟩⟩, ?_, rfl, rfl, rfl⟩
    simp [Scanner.measure, he]
  · have hread : s.read = { s with r := r', pending := s.pending ++ bs, empties := 0 } := by
      simp [Scanner.read, hrd]
    rw [hread]
    refine ⟨⟨?_, Or.inl he⟩, ?_, ?_, hf, rfl⟩
    · simp only [List.length_append]; omega
    · have : s.r.rest.length = bs.length + r'.rest.length := by
        rw [← hcat, List.length_append]
      simp only [Scanner.measure, he, if_true, List.length_append, this]
      omega
    · simp [Scanner.remaining, List.append_assoc, hcat]

theorem grow_spec (s : Scanner) (hfull : s.pending.length = s.cap)
    (hmax : s.cap < s.maxTokenSize) :
    s.grow.pending = s.pending ∧ s.grow.r = s.r ∧ s.grow.err = s.err ∧
      s.grow.start = 0 ∧ s.pending.length < s.grow.cap ∧ s.cap ≤ s.grow.cap := by
  refine ⟨rfl, rfl, rfl, rfl, ?_, ?_⟩
  · simp only [Scanner.grow, bufio.startBufSize]
    split_ifs <;> omega
  · simp only [Scanner.grow, bufio.startBufSize]
    split_ifs <;> omega

theorem fill_cases (s : Scanner) (hv : s.Valid) (he : s.err = none) :
    (∃ s', s.fill = Step.more s' ∧ s'.Valid ∧ s'.measure < s.measure ∧
        s'.remaining = s.remaining ∧ s'.r.fails = s.r.fails ∧ s.cap ≤ s'.cap) ∨
    (∃ s', s.fill = Step.stop s' ∧ s'.err = some Error.ErrTooLong ∧
        s'.r.fails = s.r.fails ∧ s.cap ≤ s.pending.length) := by
  obtain ⟨hp, hr, herr, hcap, hmaxeq, hst, hz⟩ := shift_spec s
  have hv1 : s.shift.Valid := by
    refine ⟨?_, Or.inl (herr.trans he)⟩
    rw [hp, hcap]; have := hv.1; omega
  have hm1 : s.shift.measure = s.measure := by
    simp [Scanner.measure, hp, hr, herr]
  have hrem1 : s.shift.remaining = s.remaining := by
    simp [Scanner.remaining, hp, hr]
  simp only [Scanner.fill, he, ne_eq, not_true_eq_false, if_false]
  by_cases hfull : s.shift.start + s.shift.pending.length = s.shift.cap
  · have h0 : s.shift.start = 0 := hz (by rw [← hp, ← hcap]; exact hfull)
    have hlen : s.shift.pending.length = s.shift.cap := by omega
    by_cases hmax : s.shift.cap ≥ s.shift.maxTokenSize
    · right
      refine ⟨s.shift.setErr Error.ErrTooLong, by simp [hfull, hmax], ?_, ?_, ?_⟩
      · simp [Scanner.setErr, herr, he]
      · simp [Scanner.setErr, herr, he, hr]
      · rw [← hp, ← hcap]; omega
    · left
      obtain ⟨gp, gr, gerr, gst, glt, gcap⟩ := grow_spec s.shift hlen (by omega)
      have hvg : s.shift.grow.Valid := by
        refine ⟨?_, Or.inl (gerr.trans (herr.trans he))⟩
        rw [gst, gp]; omega
      obtain ⟨r1, r2, r3, r4, r5⟩ := read_spec s.shift.grow hvg (gerr.trans (herr.trans he))
        (by rw [gst, gp]; omega)
      refine ⟨s.shift.grow.read, by simp [hfull, hmax], r1, ?_, ?_, ?_, ?_⟩
      · have : s.shift.grow.measure = s.measure := by
          simp [Scanner.measure, gp, gr, gerr, hp, hr, herr]
        omega
      · rw [r3]; simp [Scanner.remaining, gp, gr, hp, hr]
      · rw [r4, gr, hr]
      · rw [r5]; omega
  · left
    obtain ⟨r1, r2, r3, r4, r5⟩ := read_spec s.shift hv1 (herr.trans he)
      (by have := hv1.1; omega)
    refine ⟨s.shift.read, by simp [hfull], r1, by omega, by rw [r3, hrem1], by rw [r4, hr],
      by rw [r5, hcap]⟩

theorem step_found {d : List Byte} (s : Scanner) {i : Nat} (hd : d ≠ [])
    (h : bytes.Index s.pending d = some i) :
    s.step (splitAt d) = Step.token (s.pending.take i)
      { s with start := s.start + (i + d.length), pending := s.pending.drop (i + d.length),
               empties := 0 } := by
  have hne := nonempty_of_Index hd h
  have hb := Index_bound h
  have hpos : 0 < d.length := List.length_pos.mpr hd
  have hlen : 0 < s.pending.length := List.length_pos.mpr hne
  have hs := splitAt_found (decide (s.err ≠ none)) h (fun hh => hne hh.2)
  have h1 : ¬ (i + d.length > s.pending.length) := by omega
  have h2 : s.err = none ∨ i + d.length > 0 := Or.inr (by omega)
  simp only [Scanner.step, hlen, true_or, if_true, hs, h1, if_false, h2]

theorem step_last {d : List Byte} (s : Scanner)
    (h : bytes.Index s.pending d = none) (hne : s.pending ≠ []) (he : s.err ≠ none) :
    s.step (splitAt d) = Step.token s.pending
      { s with start := s.start + s.pending.length, pending := [], empties := 0 } := by
  have hlen : 0 < s.pending.length := List.length_pos.mpr hne
  have hdec : decide (s.err ≠ none) = true := by simpa using he
  have hs := splitAt_last h hne
  rw [← hdec] at hs
  have h2 : s.err = none ∨ s.pending.length > 0 := Or.inr hlen
  simp only [Scanner.step, hlen, true_or, if_true, hs, gt_iff_lt, lt_self_iff_false, if_false,
    or_true, List.drop_length]

theorem step_fill {d : List Byte} (s : Scanner)
    (h : (s.pending = [] ∧ s.err ≠ none) ∨
      (bytes.Index s.pending d = none ∧ s.err = none)) :
    s.step (splitAt d) = s.fill := by
  have hs : splitAt d s.pending (decide (s.err ≠ none)) = ⟨0, none, none⟩ := by
    rcases h with ⟨hp, he⟩ | ⟨hI, he⟩
    · have hdec : decide (s.err ≠ none) = true := by simpa using he
      rw [hdec, hp]; exact splitAt_nil_eof d
    · have hdec : decide (s.err ≠ none) = false := by simpa using he
      rw [hdec]; exact splitAt_more hI
  have heta : ({ s with start := s.start + 0, pending := s.pending.drop 0 } : Scanner) = s := by
    cases s; rfl
  by_cases hc : s.pending.length > 0 ∨ s.err ≠ none
  · simp only [Scanner.step, hc, if_true, hs, Nat.not_lt_zero, gt_iff_lt, if_false, heta]
  · simp only [Scanner.step, hc, if_false]

theorem step_cases {d : List Byte} (hd : d ≠ []) (s : Scanner) (hv : s.Valid) :
    (∃ tok s', s.step (splitAt d) = Step.token tok s' ∧ s'.Valid ∧ s'.measure < s.measure ∧
        splitAll (splitAt d) s.remaining = tok :: splitAll (splitAt d) s'.remaining ∧
        s'.r.fails = s.r.fails ∧ s.cap ≤ s'.cap ∧
        s'.remaining.length ≤ s.remaining.length) ∨
    (∃ s', s.step (splitAt d) = Step.more s' ∧ s'.Valid ∧ s'.measure < s.measure ∧
        s'.remaining = s.remaining ∧ s'.r.fails = s.r.fails ∧ s.cap ≤ s'.cap) ∨
    (∃ s', s.step (splitAt d) = Step.stop s' ∧ s'.err = some Error.ErrTooLong ∧
        s'.r.fails = s.r.fails ∧ s.cap ≤ s.remaining.length) ∨
    (∃ s', s.step (splitAt d) = Step.stop s' ∧ s'.err = some s.endErr ∧
        s.remaining = [] ∧ s'.r = s.r) := by
  have hpos : 0 < d.length := List.length_pos.mpr hd
  cases hI : bytes.Index s.pending d with
  | some i =>
    left
    have hb := Index_bound hI
    refine ⟨_, _, step_found s hd hI, ⟨?_, ?_⟩, ?_, ?_, rfl, le_refl _, ?_⟩
    · have := hv.1
      simp only [List.length_drop]
      omega
    · exact hv.2
    · simp only [Scanner.measure, List.length_drop]
      omega
    · have hI2 : bytes.Index s.remaining d = some i := Index_append s.r.rest hI
      rw [splitAll_found hd hI2]
      simp only [Scanner.remaining]
      rw [List.take_append_of_le_length (by omega), List.drop_append_of_le_length (by omega)]
    · simp only [Scanner.remaining, List.length_append, List.length_drop]
      omega
  | none =>
    by_cases he : s.err = none
    · rw [step_fill s (Or.inr ⟨hI, he⟩)]
      rcases fill_cases s hv he with ⟨s', h1, h2, h3, h4, h5, h6⟩ | ⟨s', h1, h2, h3, h4⟩
      · exact Or.inr (Or.inl ⟨s', h1, h2, h3, h4, h5, h6⟩)
      · refine Or.inr (Or.inr (Or.inl ⟨s', h1, h2, h3, ?_⟩))
        simp only [Scanner.remaining, List.length_append]
        omega
    · have hrest : s.r.rest = [] ∧ s.err = some s.endErr := by
        rcases hv.2 with h | h
        · exact absurd h he
        · exact h
      by_cases hp : s.pending = []
      · rw [step_fill s (Or.inl ⟨hp, he⟩)]
        refine Or.inr (Or.inr (Or.inr
          ⟨{ s with start := 0, pending := [] }, ?_, hrest.2, ?_, rfl⟩))
        · simp [Scanner.fill, he]
        · simp [Scanner.remaining, hp, hrest.1]
      · left
        refine ⟨_, _, step_last s hI hp he, ⟨?_, ?_⟩, ?_, ?_, rfl, le_refl _, ?_⟩
        · simpa using hv.1
        · exact hv.2
        · have : 0 < s.pending.length := List.length_pos.mpr hp
          simp only [Scanner.measure, List.length_nil]
          omega
        · simp only [Scanner.remaining, hrest.1, List.append_nil]
          rw [splitAll_last hI hp, splitAll_nil]
        · simp [Scanner.remaining]

/-- The scanner of `process` in delimiter mode, whatever the pieces in which
the reader delivers the stream: with fuel beyond `Scanner.measure` the loop
ends by `Scan` returning `false`, and then either the scanner holds
`ErrTooLong`, the tokens are an initial part of the reference tokenisation and
the stream left was at least as long as the buffer, or the reader was read to
its end and the tokens are exactly the reference tokenisation. -/
theorem run_spec {d : List Byte} (hd : d ≠ []) :
    ∀ (fuel : Nat) (s : Scanner), s.Valid → s.measure < fuel →
      (s.run (splitAt d) fuel).2.1 = Ending.finished ∧
      (((s.run (splitAt d) fuel).2.2.err = some Error.ErrTooLong ∧
          (s.run (splitAt d) fuel).1 <+: splitAll (splitAt d) s.remaining ∧
          s.cap ≤ s.remaining.length) ∨
        ((s.run (splitAt d) fuel).2.2.err = some s.endErr ∧
          (s.run (splitAt d) fuel).1 = splitAll (splitAt d) s.remaining ∧
          (s.run (splitAt d) fuel).2.2.r.rest = [])) := by
  intro fuel
  induction fuel with
  | zero => intro s _ h; omega
  | succ n ih =>
    intro s hv hm
    rcases step_cases hd s hv with
      ⟨tok, s', h1, h2, h3, h4, h5, h6, h7⟩ | ⟨s', h1, h2, h3, h4, h5, h6⟩ |
      ⟨s', h1, h2, h3, h4⟩ | ⟨s', h1, h2, h3, h4⟩
    · obtain ⟨i1, i2⟩ := ih s' h2 (by omega)
      have hend : s'.endErr = s.endErr := by simp [Scanner.endErr, h5]
      simp only [Scanner.run, h1]
      refine ⟨i1, ?_⟩
      rcases i2 with ⟨j1, j2, j3⟩ | ⟨j1, j2, j3⟩
      · left
        refine ⟨j1, ?_, by omega⟩
        rw [h4]
        exact List.prefix_cons_inj tok |>.mpr j2
      · right
        exact ⟨by rw [j1, hend], by rw [h4, j2], j3⟩
    · obtain ⟨i1, i2⟩ := ih s' h2 (by omega)
      have hend : s'.endErr = s.endErr := by simp [Scanner.endErr, h5]
      simp only [Scanner.run, h1]
      refine ⟨i1, ?_⟩
      rcases i2 with ⟨j1, j2, j3⟩ | ⟨j1, j2, j3⟩
      · left
        refine ⟨j1, by rw [← h4]; exact j2, ?_⟩
        have : s'.remaining.length = s.remaining.length := by rw [h4]
        omega
      · right
        exact ⟨by rw [j1, hend], by rw [← h4]; exact j2, j3⟩
    · simp only [Scanner.run, h1]
      exact ⟨trivial, Or.inl ⟨h2, List.nil_prefix, h4⟩⟩
    · simp only [Scanner.run, h1]
      refine ⟨trivial, Or.inr ⟨h2, ?_, ?_⟩⟩
      · rw [h3, splitAll_nil]
      · rw [h4]
        have := congrArg List.length h3
        simp only [Scanner.remaining, List.length_append, List.length_nil] at this
        exact List.length_eq_zero.mp (by omega)

/-- The scanner `process` sets up, in delimiter mode, on any input and with
any buffer size `n`: with fuel `2 * length + 2` the loop ends, and either it
ends in `ErrTooLong` (only possible when the stream is at least as long as the
buffer) or the tokens are the reference tokenisation of the whole stream. -/
theorem scan_spec {d : List Byte} (hd : d ≠ []) (input : Reader) (n fuel : Nat)
    (hfuel : 2 * input.rest.length + 2 ≤ fuel) :
    ((bufio.NewScanner input n n).run (splitAt d) fuel).2.1 = Ending.finished ∧
    ((((bufio.NewScanner input n n).run (splitAt d) fuel).2.2.err = some Error.ErrTooLong ∧
        ((bufio.NewScanner input n n).run (splitAt d) fuel).1
          <+: splitAll (splitAt d) input.rest ∧
        n ≤ input.rest.length) ∨
      (((bufio.NewScanner input n n).run (splitAt d) fuel).2.2.err
          = some (if input.fails then Error.readFailure else Error.EOF) ∧
        ((bufio.NewScanner input n n).run (splitAt d) fuel).1 = splitAll (splitAt d) input.rest ∧
        ((bufio.NewScanner input n n).run (splitAt d) fuel).2.2.r.rest = [])) := by
  have hv : (bufio.NewScanner input n n).Valid :=
    ⟨by simp [bufio.NewScanner], Or.inl rfl⟩
  have hm : (bufio.NewScanner input n n).measure < fuel := by
    simp only [Scanner.measure, bufio.NewScanner, List.length_nil, if_true]
    omega
  have := run_spec hd fuel _ hv hm
  simpa [Scanner.remaining, Scanner.endErr, bufio.NewScanner] using this

/-! ## Joining the records back together -/

theorem rejoin_single (d t : List Byte) : rejoin d [t] = t := by
  simp [rejoin, List.intersperse]

theorem rejoin_cons_cons (d t u : List Byte) (us : List (List Byte)) :
    rejoin d (t :: u :: us) = t ++ d ++ rejoin d (u :: us) := by
  simp [rejoin, List.intersperse]

theorem rejoin_splitAll {d : List Byte} (hd : d ≠ []) :
    ∀ (n : Nat) (data : List Byte), data.length ≤ n →
      (data = [] → splitAll (splitAt d) data = []) ∧
      (data ≠ [] → splitAll (splitAt d) data ≠ [] ∧
        (rejoin d (splitAll (splitAt d) data) = data ∨
          rejoin d (splitAll (splitAt d) data) ++ d = data)) := by
  have hpos : 0 < d.length := List.length_pos.mpr hd
  intro n
  induction n with
  | zero =>
    intro data hlen
    have hnil : data = [] := List.length_eq_zero.mp (by omega)
    exact ⟨fun _ => by rw [hnil]; exact splitAll_nil d, fun h => absurd hnil h⟩
  | succ n ih =>
    intro data hlen
    refine ⟨fun h => by rw [h]; exact splitAll_nil d, fun hne => ?_⟩
    cases hI : bytes.Index data d with
    | none =>
      rw [splitAll_last hI hne]
      exact ⟨by simp, Or.inl (rejoin_single d data)⟩
    | some i =>
      have hb := Index_bound hI
      have hpre := ((Index_eq_some_iff data d i).mp hI).1
      have hsplit : data = data.take i ++ d ++ data.drop (i + d.length) := by
        obtain ⟨t, ht⟩ := hpre
        have h1 : data = data.take i ++ (d ++ t) := by
          rw [ht]; exact (List.take_append_drop i data).symm
        have h2 : data.drop (i + d.length) = t := by
          rw [← List.drop_drop, ← ht]
          simp
        rw [h2, List.append_assoc]
        exact h1
      rw [splitAll_found hd hI]
      refine ⟨by simp, ?_⟩
      obtain ⟨ih1, ih2⟩ := ih (data.drop (i + d.length))
        (by simp only [List.length_drop]; omega)
      by_cases hrest : data.drop (i + d.length) = []
      · rw [ih1 hrest, rejoin_single]
        right
        conv_rhs => rw [hsplit, hrest, List.append_nil]
      · obtain ⟨hne2, hor⟩ := ih2 hrest
        obtain ⟨u, us, hus⟩ := List.exists_cons_of_ne_nil hne2
        rw [hus, rejoin_cons_cons, ← hus]
        rcases hor with h | h
        · left
          conv_rhs => rw [hsplit]
          rw [h]
        · right
          conv_rhs => rw [hsplit]
          simp only [List.append_assoc]
          rw [h]

/-- A stream made of records each followed by the delimiter, no record
letting the delimiter start before its own end, tokenises to those records. -/
theorem splitAll_terminated {d : List Byte} (hd : d ≠ []) :
    ∀ records : List (List Byte),
      (∀ r, r ∈ records → ∀ j, j < r.length → ¬ d <+: (r ++ d).drop j) →
      splitAll (splitAt d) (records.map (fun r => r ++ d)).flatten = records := by
  intro records
  induction records with
  | nil => intro _; exact splitAll_nil d
  | cons r rs ih =>
    intro h
    have hI : bytes.Index (r ++ d) d = some r.length :=
      (Index_eq_some_iff _ _ _).mpr ⟨by simp, h r (List.mem_cons_self r rs)⟩
    have hI2 := Index_append (rs.map (fun r => r ++ d)).flatten hI
    have hdata : ((r :: rs).map (fun r => r ++ d)).flatten
        = (r ++ d) ++ (rs.map (fun r => r ++ d)).flatten := by simp
    rw [hdata, splitAll_found hd hI2]
    have h1 : ((r ++ d) ++ (rs.map (fun r => r ++ d)).flatten).take r.length = r := by
      rw [List.append_assoc, List.take_left']
      rfl
    have h2 : ((r ++ d) ++ (rs.map (fun r => r ++ d)).flatten).drop (r.length + d.length)
        = (rs.map (fun r => r ++ d)).flatten := by
      rw [← List.length_append, List.drop_left']
      rfl
    rw [h1, h2, ih (fun r' hr' => h r' (List.mem_cons_of_mem r hr'))]

/-! ## The delimiter-mode split step -/

/-- C1, as stated, fails: the empty delimiter occurs in the empty buffer at
index 0, yet at end of stream `splitAt` returns no token (Go's `nil`) there,
not the token `data[0:0]`. -/
theorem splitAt_first_occurrence_fails :
    ¬ ∀ (delimiter data : List Byte) (i : Nat) (atEOF : Bool),
        delimiter <+: data.drop i → (∀ j, j < i → ¬ delimiter <+: data.drop j) →
        splitAt delimiter data atEOF
          = ⟨i + delimiter.length, some (data.take i), none⟩ := by
  intro h
  have h1 := h [] [] 0 true (by simp) (fun j hj => absurd hj (Nat.not_lt_zero j))
  revert h1
  decide

/-- C1, amended: when the delimiter occurs in `data` and `i` is the index of
its first occurrence, `splitAt(delimiter)(data, atEOF)` returns the token
`data[0:i]`, `advance = i + len(delimiter)` and no error, for either value of
`atEOF`, except when `atEOF` holds and `data` is empty, where it returns no
token, `advance = 0` and no error. -/
theorem splitAt_first_occurrence (delimiter data : List Byte) (i : Nat) (atEOF : Bool)
    (hocc : delimiter <+: data.drop i)
    (hfirst : ∀ j, j < i → ¬ delimiter <+: data.drop j) :
    splitAt delimiter data atEOF =
      if atEOF = true ∧ data = [] then ⟨0, none, none⟩
      else ⟨i + delimiter.length, some (data.take i), none⟩ := by
  have hI := (Index_eq_some_iff data delimiter i).mpr ⟨hocc, hfirst⟩
  split_ifs with hc
  · obtain ⟨h1, h2⟩ := hc
    rw [h1, h2]
    exact splitAt_nil_eof delimiter
  · exact splitAt_found atEOF hI hc

theorem splitAt_first_occurrence_witness :
    (ascii "####" <+: (ascii "A####B####C").drop 1) ∧
    (∀ j, j < 1 → ¬ ascii "####" <+: (ascii "A####B####C").drop j) ∧
    splitAt (ascii "####") (ascii "A####B####C") false = ⟨5, some (ascii "A"), none⟩ :=
  ⟨by decide, by decide,
    splitAt_first_occurrence (ascii "####") (ascii "A####B####C") 1 false
      (by decide) (by decide)⟩

/-- C10: for a non-empty delimiter, `splitAt(delimiter)(data, atEOF)` returns
no error and `advance <= len(data)`; a returned token is a prefix of `data`
and comes with `advance >= 1`; no token comes with `advance = 0`. Hence the
scanner of `process` never panics on empty tokens and never loops: with fuel
`2 * length + 2` its loop ends by `Scan` returning `false`. -/
theorem splitAt_progress (delimiter : List Byte) (hd : delimiter ≠ []) :
    (∀ (data : List Byte) (atEOF : Bool),
      (splitAt delimiter data atEOF).err = none ∧
      (splitAt delimiter data atEOF).advance ≤ data.length ∧
      (∀ tok, (splitAt delimiter data atEOF).token = some tok →
        tok <+: data ∧ 1 ≤ (splitAt delimiter data atEOF).advance) ∧
      ((splitAt delimiter data atEOF).token = none →
        (splitAt delimiter data atEOF).advance = 0)) ∧
    (∀ (input : Reader) (n fuel : Nat), 2 * input.rest.length + 2 ≤ fuel →
      ((bufio.NewScanner input n n).run (splitAt delimiter) fuel).2.1 = Ending.finished) := by
  have hpos : 0 < delimiter.length := List.length_pos.mpr hd
  refine ⟨fun data atEOF => ?_, fun input n fuel hf => (scan_spec hd input n fuel hf).1⟩
  by_cases hc : atEOF = true ∧ data = []
  · obtain ⟨h1, h2⟩ := hc
    rw [h1, h2, splitAt_nil_eof]
    simp
  · cases hI : bytes.Index data delimiter with
    | some i =>
      have hb := Index_bound hI
      rw [splitAt_found atEOF hI hc]
      refine ⟨rfl, hb, fun tok htok => ?_, fun h => by simp at h⟩
      simp only [Option.some.injEq] at htok
      subst htok
      exact ⟨List.take_prefix i data, by show 1 ≤ i + delimiter.length; omega⟩
    | none =>
      cases atEOF with
      | false =>
        rw [splitAt_more hI]
        simp
      | true =>
        have hne : data ≠ [] := fun h => hc ⟨rfl, h⟩
        have hlen : 0 < data.length := List.length_pos.mpr hne
        rw [splitAt_last hI hne]
        refine ⟨rfl, le_refl _, fun tok htok => ?_, fun h => by simp at h⟩
        simp only [Option.some.injEq] at htok
        subst htok
        exact ⟨List.prefix_refl _, hlen⟩

theorem splitAt_progress_witness :
    ascii "####" ≠ [] ∧
    (splitAt (ascii "####") (ascii "A####B") false).advance ≤ (ascii "A####B").length ∧
    1 ≤ (splitAt (ascii "####") (ascii "A####B") false).advance ∧
    ((bufio.NewScanner ⟨ascii "A####B", [0, 2], false⟩ 8 8).run
        (splitAt (ascii "####")) 14).2.1 = Ending.finished :=
  ⟨by decide,
    ((splitAt_progress (ascii "####") (by decide)).1 (ascii "A####B") false).2.1,
    (((splitAt_progress (ascii "####") (by decide)).1 (ascii "A####B") false).2.2.1
      (ascii "A") (by decide)).2,
    (splitAt_progress (ascii "####") (by decide)).2 ⟨ascii "A####B", [0, 2], false⟩ 8 14
      (by decide)⟩

/-! ## End of stream -/

/-- C2: called with `atEOF = true` on remaining bytes in which the delimiter
does not occur, `splitAt` yields a final record iff the bytes are non-empty,
and the record is all of them, with `advance = len(data)`. So a stream that
ends exactly at a delimiter, made of records each followed by the delimiter
(no record letting the delimiter start before its own end), is tokenised by
the scanner of `process` to exactly those records, with no trailing empty
record, however the reader cuts the stream and for any buffer longer than the
stream. -/
theorem splitAt_end_of_stream (delimiter : List Byte) (hd : delimiter ≠ []) :
    (∀ data : List Byte, ¬ delimiter <:+: data →
      splitAt delimiter data true =
        if data = [] then ⟨0, none, none⟩ else ⟨data.length, some data, none⟩) ∧
    (∀ (records : List (List Byte)) (input : Reader) (n fuel : Nat),
      (∀ r, r ∈ records →
        ∀ j, j < r.length → ¬ delimiter <+: (r ++ delimiter).drop j) →
      input.rest = (records.map (fun r => r ++ delimiter)).flatten →
      input.rest.length < n → 2 * input.rest.length + 2 ≤ fuel →
      ((bufio.NewScanner input n n).run (splitAt delimiter) fuel).1 = records ∧
      ((bufio.NewScanner input n n).run (splitAt delimiter) fuel).2.1 = Ending.finished) := by
  constructor
  · intro data hno
    have hI : bytes.Index data delimiter = none :=
      (Index_eq_none_iff data delimiter).mpr
        (fun j hj => hno ((occurs_iff_isInfix data delimiter).mp ⟨j, hj⟩))
    split_ifs with hc
    · rw [hc]; exact splitAt_nil_eof delimiter
    · exact splitAt_last hI hc
  · intro records input n fuel hrec hdata hn hfuel
    obtain ⟨h1, h2⟩ := scan_spec hd input n fuel hfuel
    refine ⟨?_, h1⟩
    rcases h2 with ⟨_, _, hle⟩ | ⟨_, htok, _⟩
    · omega
    · rw [htok, hdata]
      exact splitAll_terminated hd records hrec

theorem splitAt_end_of_stream_witness :
    ascii "####" ≠ [] ∧ ¬ ascii "####" <:+: ascii "C" ∧
    (splitAt (ascii "####") (ascii "C") true = ⟨1, some (ascii "C"), none⟩) ∧
    ((bufio.NewScanner ⟨ascii "A####", [1], false⟩ 16 16).run
        (splitAt (ascii "####")) 12).1 = [ascii "A"] :=
  ⟨by decide, by decide,
    (splitAt_end_of_stream (ascii "####") (by decide)).1 (ascii "C") (by decide),
    ((splitAt_end_of_stream (ascii "####") (by decide)).2 [ascii "A"]
      ⟨ascii "A####", [1], false⟩ 16 12 (by decide) (by decide) (by decide) (by decide)).1⟩

/-! ## Round trip -/

/-- C6: for every input byte sequence and every non-empty delimiter, joining
the records with the delimiter between consecutive records gives back the
input, either exactly or with exactly one trailing delimiter of the input
missing. This holds for the records obtained by driving `splitAt(delimiter)`
over the whole input, and for the records the scanner of `process` obtains,
whatever the pieces in which it reads the input and whatever its buffer size,
once it has driven `splitAt(delimiter)` to the end of the stream (`scan.Err()`
is nil), which it does within `2 * length + 2` passes. -/
theorem delimiter_round_trip (delimiter : List Byte) (hd : delimiter ≠ []) :
    (∀ data : List Byte,
      rejoin delimiter (splitAll (splitAt delimiter) data) = data ∨
      rejoin delimiter (splitAll (splitAt delimiter) data) ++ delimiter = data) ∧
    (∀ (input : Reader) (n fuel : Nat), 2 * input.rest.length + 2 ≤ fuel →
      ((bufio.NewScanner input n n).run (splitAt delimiter) fuel).2.2.Err = none →
      ((bufio.NewScanner input n n).run (splitAt delimiter) fuel).2.1 = Ending.finished ∧
      (rejoin delimiter ((bufio.NewScanner input n n).run (splitAt delimiter) fuel).1
          = input.rest ∨
        rejoin delimiter ((bufio.NewScanner input n n).run (splitAt delimiter) fuel).1
            ++ delimiter = input.rest)) := by
  have hall : ∀ data : List Byte,
      rejoin delimiter (splitAll (splitAt delimiter) data) = data ∨
      rejoin delimiter (splitAll (splitAt delimiter) data) ++ delimiter = data := by
    intro data
    obtain ⟨hnil, hcons⟩ := rejoin_splitAll hd data.length data (le_refl _)
    by_cases he : data = []
    · left
      rw [hnil he, he]
      rfl
    · exact (hcons he).2
  refine ⟨hall, fun input n fuel hfuel hok => ?_⟩
  obtain ⟨h1, h2⟩ := scan_spec hd input n fuel hfuel
  refine ⟨h1, ?_⟩
  rcases h2 with ⟨herr, _, _⟩ | ⟨_, htok, _⟩
  · simp [Scanner.Err, herr] at hok
  · rw [htok]
    exact hall input.rest

theorem delimiter_round_trip_witness :
    ascii "##" ≠ [] ∧
    ((bufio.NewScanner ⟨ascii "A##B##", [1], false⟩ 4 4).run
        (splitAt (ascii "##")) 14).2.2.Err = none ∧
    (rejoin (ascii "##") ((bufio.NewScanner ⟨ascii "A##B##", [1], false⟩ 4 4).run
        (splitAt (ascii "##")) 14).1 = ascii "A##B##" ∨
      rejoin (ascii "##") ((bufio.NewScanner ⟨ascii "A##B##", [1], false⟩ 4 4).run
        (splitAt (ascii "##")) 14).1 ++ ascii "##" = ascii "A##B##") :=
  ⟨by decide, by decide,
    ((delimiter_round_trip (ascii "##") (by decide)).2 ⟨ascii "A##B##", [1], false⟩ 4 14
      (by decide) (by decide)).2⟩

/-! ## The writer -/

theorem Write_sound (b : Writer) (p : List Byte) (hs : b.Sound) :
    (b.Write p).1.Sound ∧ (b.Write p).2 = false ∧ (b.Write p).1.size = b.size ∧
    (b.Write p).1.accepted = b.accepted ++ p ∧
    (b.wr.bytes = [] → b.buf.length + p.length ≤ b.size →
      (b.Write p).1.wr.bytes = []) := by
  obtain ⟨⟨bytes, room⟩, buf, size, err⟩ := b
  obtain ⟨he, hr⟩ := hs
  simp only at he hr
  subst he hr
  by_cases h1 : p.length ≤ size - buf.length
  · have hw : Writer.Write ⟨⟨bytes, none⟩, buf, size, false⟩ p
        = (⟨⟨bytes, none⟩, buf ++ p, size, false⟩, false) := by
      simp [Writer.Write, Writer.Available, h1]
    rw [hw]
    exact ⟨⟨rfl, rfl⟩, rfl, rfl, by simp [Writer.accepted], fun h _ => h⟩
  · have hav : ¬ (buf.length + p.length ≤ size) := by omega
    by_cases h2 : buf.length = 0
    · have hnil : buf = [] := List.length_eq_zero.mp h2
      subst hnil
      simp only [List.length_nil, Nat.sub_zero] at h1
      have hw : Writer.Write ⟨⟨bytes, none⟩, [], size, false⟩ p
          = (⟨⟨bytes ++ p, none⟩, [], size, false⟩, false) := by
        simp [Writer.Write, Writer.Available, h1, File.Write]
      rw [hw]
      exact ⟨⟨rfl, rfl⟩, rfl, rfl, by simp [Writer.accepted], fun _ h => absurd h hav⟩
    · have hlen : ¬ (buf.length + min (size - buf.length) p.length = 0) := by omega
      have hbuf : ¬ buf = [] := fun h => h2 (by rw [h]; rfl)
      by_cases h3 : (p.drop (size - buf.length)).length ≤ size
      · have hw : Writer.Write ⟨⟨bytes, none⟩, buf, size, false⟩ p
            = (⟨⟨bytes ++ (buf ++ p.take (size - buf.length)), none⟩,
                p.drop (size - buf.length), size, false⟩, false) := by
          simp only [List.length_drop] at h3
          simp [Writer.Write, Writer.Available, h1, h2, Writer.Flush, File.Write, h3, hbuf]
        rw [hw]
        refine ⟨⟨rfl, rfl⟩, rfl, rfl, ?_, fun _ h => absurd h hav⟩
        simp [Writer.accepted, List.append_assoc]
      · have hw : Writer.Write ⟨⟨bytes, none⟩, buf, size, false⟩ p
            = (⟨⟨bytes ++ (buf ++ p.take (size - buf.length)) ++ p.drop (size - buf.length),
                  none⟩, [], size, false⟩, false) := by
          simp only [List.length_drop] at h3
          simp [Writer.Write, Writer.Available, h1, h2, Writer.Flush, File.Write, h3, hbuf]
        rw [hw]
        refine ⟨⟨rfl, rfl⟩, rfl, rfl, ?_, fun _ h => absurd h hav⟩
        simp [Writer.accepted, List.append_assoc]

theorem writeChunk_sound (out : Out) (data : List Byte) (name : String) (hs : out.w.Sound) :
    (writeChunk out data name).w.Sound ∧ (writeChunk out data name).log = out.log ∧
    (writeChunk out data name).w.size = out.w.size ∧
    (writeChunk out data name).w.accepted = out.w.accepted ++ data ∧
    (out.w.wr.bytes = [] → out.w.buf.length + data.length ≤ out.w.size →
      (writeChunk out data name).w.wr.bytes = []) := by
  obtain ⟨h1, h2, h3, h4, h5⟩ := Write_sound out.w data hs
  have hw : writeChunk out data name = { w := (out.w.Write data).1, log := out.log } := by
    simp [writeChunk, h2]
  rw [hw]
  exact ⟨h1, rfl, h3, h4, h5⟩

theorem accepted_length (b : Writer) (h : b.wr.bytes = []) :
    b.accepted.length = b.buf.length := by
  simp [Writer.accepted, h]

theorem emit_sound (params : Params) (name : String) (token : List Byte) (out : Out)
    (hs : out.w.Sound) :
    (emit params name token out).w.Sound ∧ (emit params name token out).log = out.log ∧
    (emit params name token out).w.size = out.w.size ∧
    (emit params name token out).w.accepted
      = out.w.accepted ++ (params.Delimiter ++ token) ∧
    (out.w.wr.bytes = [] →
      out.w.buf.length + (params.Delimiter ++ token).length ≤ out.w.size →
      (emit params name token out).w.wr.bytes = []) := by
  obtain ⟨a1, a2, a3, a4, a5⟩ := writeChunk_sound out params.Delimiter name hs
  obtain ⟨b1, b2, b3, b4, b5⟩ :=
    writeChunk_sound (writeChunk out params.Delimiter name) token name a1
  refine ⟨b1, b2.trans a2, b3.trans a3, ?_, fun h0 hlen => ?_⟩
  · show (writeChunk (writeChunk out params.Delimiter name) token name).w.accepted = _
    rw [b4, a4, List.append_assoc]
  · simp only [List.length_append] at hlen
    have hz := a5 h0 (by omega)
    have hl := accepted_length _ hz
    rw [a4, List.length_append, accepted_length _ h0] at hl
    exact b5 hz (by rw [a3]; omega)

theorem iterate_emit_sound (params : Params) (name : String) (token : List Byte) :
    ∀ (k : Nat) (out : Out), out.w.Sound →
      ((emit params name token)^[k] out).w.Sound ∧
      ((emit params name token)^[k] out).log = out.log ∧
      ((emit params name token)^[k] out).w.size = out.w.size ∧
      ((emit params name token)^[k] out).w.accepted
        = out.w.accepted ++ (List.replicate k (params.Delimiter ++ token)).flatten ∧
      (out.w.wr.bytes = [] →
        out.w.buf.length + (List.replicate k (params.Delimiter ++ token)).flatten.length
          ≤ out.w.size →
        ((emit params name token)^[k] out).w.wr.bytes = []) := by
  intro k
  induction k with
  | zero => intro out hs; exact ⟨hs, rfl, rfl, by simp, fun h _ => h⟩
  | succ k ih =>
    intro out hs
    obtain ⟨a1, a2, a3, a4, a5⟩ := emit_sound params name token out hs
    obtain ⟨b1, b2, b3, b4, b5⟩ := ih (emit params name token out) a1
    simp only [Function.iterate_succ, Function.comp_apply]
    refine ⟨b1, b2.trans a2, b3.trans a3, ?_, fun h0 hlen => ?_⟩
    · rw [b4, a4, List.replicate_succ, List.flatten_cons, List.append_assoc]
    · rw [List.replicate_succ, List.flatten_cons, List.length_append] at hlen
      have hz := a5 h0 (by omega)
      have hl := accepted_length _ hz
      rw [a4, List.length_append, accepted_length _ h0] at hl
      exact b5 hz (by rw [a3]; omega)

/-! ## The match loop -/

theorem foldl_emit {α : Type} (f : Out → Out) (c : α → Bool) :
    ∀ (l : List α) (out : Out),
      l.foldl (fun o a => if c a = true then f o else o) out = f^[l.countP c] out := by
  intro l
  induction l with
  | nil => intro out; rfl
  | cons a t ih =>
    intro out
    by_cases h : c a = true
    · rw [List.foldl_cons, List.countP_cons_of_pos _ _ h, Function.iterate_succ_apply, if_pos h]
      exact ih (f out)
    · rw [List.foldl_cons, List.countP_cons_of_neg _ _ h, if_neg h]
      exact ih out

theorem processToken_eq_iterate (params : Params) (name : String) (out : Out)
    (token : List Byte) :
    processToken params name out token
      = (emit params name token)^[selecting params token] out := by
  have hlit : ∀ search : List Byte,
      (bytes.Contains token search == !params.Inverse)
        = (decide (search <:+: token) == !params.Inverse) := by
    intro search
    congr 1
    by_cases h : search <:+: token
    · simp [h, (Contains_iff_isInfix token search).mpr h]
    · have : bytes.Contains token search = false := by
        cases hc : bytes.Contains token search with
        | false => rfl
        | true => exact absurd ((Contains_iff_isInfix token search).mp hc) h
      simp [h, this]
  unfold processToken selecting
  rw [Nat.add_comm, Function.iterate_add_apply]
  have h1 := foldl_emit (emit params name token)
    (fun search : List Byte => bytes.Contains token search == !params.Inverse)
    params.SearchStrings out
  have h2 := fun o => foldl_emit (emit params name token)
    (fun search : Regexp => search.Match token == !params.Inverse)
    params.RegexpStrings o
  simp only [emit] at h1 h2 ⊢
  rw [h1, h2]
  congr 2
  exact List.countP_congr (fun s _ => by rw [hlit s])

/-! ## What `process` leaves in the file -/

theorem foldl_processToken_sound (params : Params) (name : String) :
    ∀ (tokens : List (List Byte)) (out : Out), out.w.Sound →
      (tokens.foldl (processToken params name) out).w.Sound ∧
      (tokens.foldl (processToken params name) out).log = out.log ∧
      (tokens.foldl (processToken params name) out).w.size = out.w.size ∧
      (tokens.foldl (processToken params name) out).w.accepted
        = out.w.accepted ++ expected params tokens ∧
      (out.w.wr.bytes = [] →
        out.w.buf.length + (expected params tokens).length ≤ out.w.size →
        (tokens.foldl (processToken params name) out).w.wr.bytes = []) := by
  intro tokens
  induction tokens with
  | nil => intro out hs; exact ⟨hs, rfl, rfl, by simp [expected], fun h _ => h⟩
  | cons t ts ih =>
    intro out hs
    obtain ⟨a1, a2, a3, a4, a5⟩ := iterate_emit_sound params name t (selecting params t) out hs
    rw [← processToken_eq_iterate] at a1 a2 a3 a4 a5
    obtain ⟨b1, b2, b3, b4, b5⟩ := ih (processToken params name out t) a1
    have hexp : expected params (t :: ts)
        = (List.replicate (selecting params t) (params.Delimiter ++ t)).flatten
            ++ expected params ts := by
      simp [expected]
    rw [List.foldl_cons]
    refine ⟨b1, b2.trans a2, b3.trans a3, ?_, fun h0 hlen => ?_⟩
    · rw [b4, a4, hexp, List.append_assoc]
    · rw [hexp, List.length_append] at hlen
      have hz := a5 h0 (by omega)
      have hl := accepted_length _ hz
      rw [a4, List.length_append, accepted_length _ h0] at hl
      exact b5 hz (by rw [a3]; omega)

/-- With dry-run off, the output file created and no write limit: the bytes
the writer of `process` accepted, those in the file followed by those still
in its buffer, are the expected output; and whenever the expected output has
at most 4096 bytes, all of it is still in the buffer when `process` returns
and the file is empty. -/
theorem process_output (fuel : Nat) (env : Env) (input : Reader) (params : Params)
    (name : String) (hx : params.X = false) (hc : env.createOk = true)
    (hroom : env.room = none) :
    (process fuel env input params name).created = true ∧
    (process fuel env input params name).tokens
      = ((bufio.NewScanner input params.BufferSize params.BufferSize).run
          (getSplitFunc params) fuel).1 ∧
    (process fuel env input params name).ending
      = ((bufio.NewScanner input params.BufferSize params.BufferSize).run
          (getSplitFunc params) fuel).2.1 ∧
    (process fuel env input params name).file ++ (process fuel env input params name).buffered
      = expected params (process fuel env input params name).tokens ∧
    ((expected params (process fuel env input params name).tokens).length
        ≤ bufio.defaultBufSize →
      (process fuel env input params name).file = [] ∧
      (process fuel env input params name).buffered
        = expected params (process fuel env input params name).tokens) := by
  have hs : (bufio.NewWriter { bytes := [], room := env.room }).Sound := ⟨rfl, hroom⟩
  obtain ⟨_, _, _, a4, a5⟩ := foldl_processToken_sound params name
    ((bufio.NewScanner input params.BufferSize params.BufferSize).run
      (getSplitFunc params) fuel).1
    { w := bufio.NewWriter { bytes := [], room := env.room }, log := [] } hs
  simp only [process, hx, hc, Bool.false_eq_true, if_false, Bool.not_true]
  refine ⟨trivial, trivial, trivial, ?_, fun hlen => ?_⟩
  · simpa [Writer.accepted, bufio.NewWriter] using a4
  · have hz := a5 rfl (by simpa [bufio.NewWriter] using hlen)
    have h4 := a4
    simp only [Writer.accepted, bufio.NewWriter, List.nil_append] at h4 hz
    rw [hz, List.nil_append] at h4
    exact ⟨hz, h4⟩

/-! ## Scenario A on disk -/

/-- C3 at Scenario A (delimiter `####`, input `A####B####C`, one literal
criterion `B`, inverse off, dry-run off, no I/O failure, buffer longer than
the stream), however the reader cuts the stream: `process` tokenises to `A`,
`B`, `C` and its writer accepts exactly `####B`, the expected output, but
these bytes are still in the `bufio.Writer` when `process` returns: the output
file holds no bytes at all. -/
theorem process_scenarioA_file_empty (sizes : List Nat) (n fuel : Nat)
    (hn : 11 < n) (hfuel : 24 ≤ fuel) :
    (process fuel ⟨true, true, none⟩ ⟨ascii "A####B####C", sizes, false⟩
        (scenarioA n) "a.log").tokens = [ascii "A", ascii "B", ascii "C"] ∧
    expected (scenarioA n) [ascii "A", ascii "B", ascii "C"] = ascii "####B" ∧
    (process fuel ⟨true, true, none⟩ ⟨ascii "A####B####C", sizes, false⟩
        (scenarioA n) "a.log").created = true ∧
    (process fuel ⟨true, true, none⟩ ⟨ascii "A####B####C", sizes, false⟩
        (scenarioA n) "a.log").file = [] ∧
    (process fuel ⟨true, true, none⟩ ⟨ascii "A####B####C", sizes, false⟩
        (scenarioA n) "a.log").buffered = ascii "####B" := by
  have hd : ascii "####" ≠ [] := by decide
  obtain ⟨p1, p2, _, _, p5⟩ := process_output fuel ⟨true, true, none⟩
    ⟨ascii "A####B####C", sizes, false⟩ (scenarioA n) "a.log" rfl rfl rfl
  have hsp : getSplitFunc (scenarioA n) = splitAt (ascii "####") := rfl
  have hlen : (ascii "A####B####C").length = 11 := by decide
  obtain ⟨_, s2⟩ := scan_spec hd ⟨ascii "A####B####C", sizes, false⟩ n fuel
    (by show 2 * (ascii "A####B####C").length + 2 ≤ fuel; omega)
  have htok : (process fuel ⟨true, true, none⟩ ⟨ascii "A####B####C", sizes, false⟩
      (scenarioA n) "a.log").tokens = [ascii "A", ascii "B", ascii "C"] := by
    rw [p2, hsp]
    rcases s2 with ⟨_, _, hle⟩ | ⟨_, h, _⟩
    · have : n ≤ (ascii "A####B####C").length := hle
      omega
    · have hall : splitAll (splitAt (ascii "####")) (ascii "A####B####C")
          = [ascii "A", ascii "B", ascii "C"] := by decide
      exact h.trans hall
  have hexp : expected (scenarioA n) [ascii "A", ascii "B", ascii "C"] = ascii "####B" := by
    show expected (scenarioA 0) [ascii "A", ascii "B", ascii "C"] = ascii "####B"
    decide
  rw [htok, hexp] at p5
  exact ⟨htok, hexp, p1, (p5 (by decide)).1, (p5 (by decide)).2⟩

theorem process_scenarioA_file_empty_witness :
    11 < 12 ∧ 24 ≤ 24 ∧
    (process 24 ⟨true, true, none⟩ ⟨ascii "A####B####C", [3, 0], false⟩
        (scenarioA 12) "a.log").file = [] ∧
    (process 24 ⟨true, true, none⟩ ⟨ascii "A####B####C", [3, 0], false⟩
        (scenarioA 12) "a.log").buffered = ascii "####B" :=
  ⟨by decide, by decide,
    (process_scenarioA_file_empty [3, 0] 12 24 (by decide) (by decide)).2.2.2.1,
    (process_scenarioA_file_empty [3, 0] 12 24 (by decide) (by decide)).2.2.2.2⟩

/-! ## The match loop: duplication and inverse -/

/-- C4: for every token and every list of literal and regular-expression
criteria, the match loop of `process` performs the emission (delimiter chunk,
then token chunk) exactly `K` times in a row, `K` being the number of criteria
`c`, over the literal list followed by the regex list and each entry counted,
with `hit(c, token) == !inverse`, a literal hitting when it is a contiguous
part of the token; on a writer without failure the bytes accepted grow by
exactly `K` copies of `delimiter ++ token`. -/
theorem duplication_law (params : Params) (name : String) (out : Out) (token : List Byte) :
    processToken params name out token
      = (emit params name token)^[
          params.SearchStrings.countP
              (fun search => decide (search <:+: token) == !params.Inverse) +
            params.RegexpStrings.countP
              (fun search => search.Match token == !params.Inverse)] out ∧
    (out.w.Sound →
      (processToken params name out token).w.accepted
        = out.w.accepted ++
          (List.replicate
            (params.SearchStrings.countP
                (fun search => decide (search <:+: token) == !params.Inverse) +
              params.RegexpStrings.countP
                (fun search => search.Match token == !params.Inverse))
            (params.Delimiter ++ token)).flatten) := by
  refine ⟨processToken_eq_iterate params name out token, fun hs => ?_⟩
  rw [processToken_eq_iterate]
  exact (iterate_emit_sound params name token (selecting params token) out hs).2.2.2.1

theorem duplication_law_witness :
    (bufio.NewWriter ⟨[], none⟩).Sound ∧
    (processToken
        { scenarioA 64 with
          SearchStrings := [ascii "B", ascii "Z", ascii "B"],
          RegexpStrings := [⟨fun b => bytes.Contains b (ascii "AB")⟩] }
        "a.log" ⟨bufio.NewWriter ⟨[], none⟩, []⟩ (ascii "AB")).w.accepted
      = ascii "####AB####AB####AB" :=
  ⟨⟨rfl, rfl⟩,
    ((duplication_law
      { scenarioA 64 with
        SearchStrings := [ascii "B", ascii "Z", ascii "B"],
        RegexpStrings := [⟨fun b => bytes.Contains b (ascii "AB")⟩] }
      "a.log" ⟨bufio.NewWriter ⟨[], none⟩, []⟩ (ascii "AB")).2 ⟨rfl, rfl⟩).trans
      (by decide)⟩

/-- C5: for every token and every single criterion, literal or regular
expression, the match loop emits the token under exactly one of
`inverse = false` and `inverse = true`: once under `inverse = false` and not
at all under `inverse = true` when the criterion hits the token, and the
other way round when it does not. -/
theorem inverse_symmetry (params : Params) (name : String) (out : Out) (token : List Byte) :
    (∀ search : List Byte,
      processToken { params with SearchStrings := [search], RegexpStrings := [],
                                 Inverse := false } name out token
        = (if search <:+: token then emit params name token out else out) ∧
      processToken { params with SearchStrings := [search], RegexpStrings := [],
                                 Inverse := true } name out token
        = (if search <:+: token then out else emit params name token out)) ∧
    (∀ search : Regexp,
      processToken { params with SearchStrings := [], RegexpStrings := [search],
                                 Inverse := false } name out token
        = (if search.Match token = true then emit params name token out else out) ∧
      processToken { params with SearchStrings := [], RegexpStrings := [search],
                                 Inverse := true } name out token
        = (if search.Match token = true then out else emit params name token out)) := by
  constructor
  · intro search
    by_cases h : search <:+: token
    · have hc := (Contains_iff_isInfix token search).mpr h
      simp [processToken, emit, hc, h]
    · have hc : bytes.Contains token search = false := by
        cases hb : bytes.Contains token search with
        | false => rfl
        | true => exact absurd ((Contains_iff_isInfix token search).mp hb) h
      simp [processToken, emit, hc, h]
  · intro search
    by_cases h : search.Match token = true
    · simp [processToken, emit, h]
    · have hf : search.Match token = false := by simpa using h
      simp [processToken, emit, hf]

/-! ## Archive or plain file -/

/-- C7, as stated, fails: the candidate named `logzip` does not end in `.zip`,
yet `Run` hands it to `introspectZip`. -/
theorem launch_zip_suffix_fails :
    ¬ ∀ file : FileInfo, file.IsDir = false →
        (Run.launch file = some (LogLine.zipFile file.Name, Task.introspectZip file.Name)
          ↔ ".zip".toList <:+ file.Name.toList) := by
  intro h
  have h1 := (h ⟨"logzip", false⟩ rfl).mp (by decide)
  revert h1
  decide

/-- C7, amended: for every discovered non-directory candidate, `Run` treats it
as an archive (`introspectZip`) if and only if its file name ends with `zip`
(case-sensitive, no dot required), and as a plain file (`processLog`)
otherwise; every name ending in `.zip` is thus an archive, and a name that
does not end in `zip` is never opened as an archive. A directory starts no
task. -/
theorem launch_zip_suffix (file : FileInfo) :
    (file.IsDir = false →
      (Run.launch file = some (LogLine.zipFile file.Name, Task.introspectZip file.Name)
        ↔ "zip".toList <:+ file.Name.toList) ∧
      (Run.launch file = some (LogLine.logFile file.Name, Task.processLog file.Name)
        ↔ ¬ "zip".toList <:+ file.Name.toList) ∧
      (".zip".toList <:+ file.Name.toList →
        Run.launch file = some (LogLine.zipFile file.Name, Task.introspectZip file.Name))) ∧
    (file.IsDir = true → Run.launch file = none) := by
  have hsuf : strings.HasSuffix file.Name "zip" = true ↔ "zip".toList <:+ file.Name.toList := by
    unfold strings.HasSuffix
    exact List.isSuffixOf_iff_suffix
  constructor
  · intro hdir
    by_cases hz : "zip".toList <:+ file.Name.toList
    · have hb := hsuf.mpr hz
      have hl : Run.launch file
          = some (LogLine.zipFile file.Name, Task.introspectZip file.Name) := by
        simp [Run.launch, hdir, hb]
      exact ⟨⟨fun _ => hz, fun _ => hl⟩,
        ⟨fun h => by rw [hl] at h; simp at h, fun h => absurd hz h⟩, fun _ => hl⟩
    · have hb : strings.HasSuffix file.Name "zip" = false := by
        cases hc : strings.HasSuffix file.Name "zip" with
        | false => rfl
        | true => exact absurd (hsuf.mp hc) hz
      have hdot : ¬ ".zip".toList <:+ file.Name.toList := fun hd =>
        hz (List.IsSuffix.trans (by decide) hd)
      have hl : Run.launch file
          = some (LogLine.logFile file.Name, Task.processLog file.Name) := by
        simp [Run.launch, hdir, hb]
      exact ⟨⟨fun h => by rw [hl] at h; simp at h, fun h => absurd h hz⟩,
        ⟨fun _ => hz, fun _ => hl⟩, fun hd => absurd hd hdot⟩
  · intro hdir
    simp [Run.launch, hdir]

theorem launch_zip_suffix_witness :
    "zip".toList <:+ "logs.zip".toList ∧ ¬ "zip".toList <:+ "app.log".toList ∧
    Run.launch ⟨"logzip", false⟩
        = some (LogLine.zipFile "logzip", Task.introspectZip "logzip") ∧
    Run.launch ⟨"logs.zip", false⟩
        = some (LogLine.zipFile "logs.zip", Task.introspectZip "logs.zip") ∧
    Run.launch ⟨"app.log", false⟩
        = some (LogLine.logFile "app.log", Task.processLog "app.log") :=
  ⟨by decide, by decide,
    ((launch_zip_suffix ⟨"logzip", false⟩).1 rfl).1.mpr (by decide),
    ((launch_zip_suffix ⟨"logs.zip", false⟩).1 rfl).2.2 (by decide),
    ((launch_zip_suffix ⟨"app.log", false⟩).1 rfl).2.1.mpr (by decide)⟩

/-! ## Dry-run -/

/-- C8: with dry-run enabled, for every source, stream content, criteria list
and either inverse value, `process` creates no output file and writes no
bytes, neither to a file nor to a buffer; and `prepareDst` does not create the
output directory. -/
theorem dry_run_no_output (params : Params) (hx : params.X = true) :
    (∀ (fuel : Nat) (env : Env) (input : Reader) (name : String),
      (process fuel env input params name).created = false ∧
      (process fuel env input params name).file = [] ∧
      (process fuel env input params name).buffered = []) ∧
    (∀ (env : DstEnv) (path : String), FsOp.MkdirAll path ∉ (prepareDst env params).ops) := by
  constructor
  · intro fuel env input name
    simp [process, hx]
  · intro env path
    cases hp : env.present <;> cases hf : params.Force <;> cases hr : env.removeOk <;>
      simp [prepareDst, hx, hp, hf, hr]

theorem dry_run_no_output_witness :
    ({ scenarioA 64 with X := true } : Params).X = true ∧
    (process 24 ⟨true, true, none⟩ ⟨ascii "A####B####C", [], false⟩
        { scenarioA 64 with X := true } "a.log").created = false ∧
    (process 24 ⟨true, true, none⟩ ⟨ascii "A####B####C", [], false⟩
        { scenarioA 64 with X := true } "a.log").file = [] :=
  ⟨rfl,
    ((dry_run_no_output { scenarioA 64 with X := true } rfl).1 24 ⟨true, true, none⟩
      ⟨ascii "A####B####C", [], false⟩ "a.log").1,
    ((dry_run_no_output { scenarioA 64 with X := true } rfl).1 24 ⟨true, true, none⟩
      ⟨ascii "A####B####C", [], false⟩ "a.log").2.1⟩

/-- C9, as stated, fails. Were dry-run to suppress only the creation of the
output file and the writes, a dry run would hand the match loop the tokens of
the same call with dry-run off, leave the reader where that call leaves it and
report the read failures that call reports. On the stream `A####BCDEFGH` with
delimiter `####` and buffer size 5, the call with dry-run off hands over the
token `A` and reports `ErrTooLong`; the dry run hands over no token, reads
nothing and reports nothing. -/
theorem dry_run_pipeline_fails :
    ¬ ∀ (fuel : Nat) (env : Env) (input : Reader) (params : Params) (name : String),
        params.X = true →
        (process fuel env input params name).tokens
          = (process fuel env input { params with X := false } name).tokens ∧
        (process fuel env input params name).reader
          = (process fuel env input { params with X := false } name).reader ∧
        (∀ e, LogLine.cantRead name e
            ∈ (process fuel env input { params with X := false } name).log →
          LogLine.cantRead name e ∈ (process fuel env input params name).log) := by
  intro h
  have h1 := (h 24 ⟨true, true, none⟩ ⟨ascii "A####BCDEFGH", [], false⟩
    { scenarioA 5 with X := true } "a.log" rfl).1
  revert h1
  decide

/-- C9, amended: with dry-run enabled `process` returns at once: it hands no
token to the match loop, reads nothing from the source stream, whose reader
it leaves as it found it, logs nothing, so that no read or token-too-large
failure is detected or reported, and it neither creates the output file nor
writes. -/
theorem dry_run_skips_pipeline (fuel : Nat) (env : Env) (input : Reader) (params : Params)
    (name : String) (hx : params.X = true) :
    process fuel env input params name =
      { created := false, file := [], buffered := [], tokens := [], reader := input,
        log := [], fatal := false, ending := Ending.finished } := by
  simp [process, hx]

theorem dry_run_skips_pipeline_witness :
    ({ scenarioA 5 with X := true } : Params).X = true ∧
    process 24 ⟨true, true, none⟩ ⟨ascii "A####BCDEFGH", [], false⟩
        { scenarioA 5 with X := true } "a.log" =
      { created := false, file := [], buffered := [], tokens := [],
        reader := ⟨ascii "A####BCDEFGH", [], false⟩,
        log := [], fatal := false, ending := Ending.finished } :=
  ⟨rfl, dry_run_skips_pipeline 24 ⟨true, true, none⟩ ⟨ascii "A####BCDEFGH", [], false⟩
    { scenarioA 5 with X := true } "a.log" rfl⟩

end FilterGo
